import Mathlib

/-!
Verification of the go-git-stats commit-statistics pipeline (src/main.go).

The Go program discovers git repositories under a base directory, extracts
per-branch date histograms of commits, and aggregates them into three CSV
views (detail rows, daily totals, yearly totals).  This file shallowly embeds
the pure core of that program: Go maps become association lists with
distinct keys, the goroutine batch loop becomes a fuel-indexed loop over
consecutive chunks, and the external go-git library becomes an explicit
environment supplying open/references/log results per repository path.
-/

namespace GitStats

/-- Association-list model of a Go `map[K]V` with additive insertion:
`insertAdd m k v` models `m[k] += v` (Go maps have a zero default). -/
def insertAdd {κ : Type} [DecidableEq κ] (m : List (κ × Nat)) (k : κ) (v : Nat) :
    List (κ × Nat) :=
  match m with
  | [] => [(k, v)]
  | (k', v') :: rest =>
    if k = k' then (k', v' + v) :: rest else (k', v') :: insertAdd rest k v

/-- Lookup with Go's zero default for missing keys. -/
def lookupD {κ : Type} [DecidableEq κ] (m : List (κ × Nat)) (k : κ) : Nat :=
  match m with
  | [] => 0
  | (k', v') :: rest => if k = k' then v' else lookupD rest k

/-- Keys of the association-list map. -/
def mapKeys {κ : Type} (m : List (κ × Nat)) : List κ := m.map Prod.fst

/-- Sum of all values stored in the map. -/
def sumValues {κ : Type} (m : List (κ × Nat)) : Nat := (m.map Prod.snd).sum

/-- Fold a list of (key, count) increments into a map, as the Go code's
`for ... range` loops doing `m[k] += v` do. -/
def buildMap {κ : Type} [DecidableEq κ] (l : List (κ × Nat)) : List (κ × Nat) :=
  l.foldl (fun m p => insertAdd m p.1 p.2) []

/-- Lexicographic comparison of character lists.  Go compares strings
byte-wise; on UTF-8 encoded text byte order agrees with code-point order,
so this models Go's `<=` on strings. -/
def lexLE : List Char → List Char → Bool
  | [], _ => true
  | _ :: _, [] => false
  | a :: as, b :: bs => if a < b then true else if b < a then false else lexLE as bs

/-- Go string order `a <= b`, as a proposition on Lean strings. -/
def strLE (a b : String) : Prop := lexLE a.toList b.toList = true

instance : DecidableRel strLE :=
  fun a b => inferInstanceAs (Decidable (lexLE a.toList b.toList = true))

/-- Key ordering used by `sort.Slice(summaries, func(i, j) { less by key })`,
lifted from an order on the keys. -/
def liftKey {κ : Type} (r : κ → κ → Prop) (p q : κ × Nat) : Prop := r p.1 q.1

instance {κ : Type} (r : κ → κ → Prop) [DecidableRel r] : DecidableRel (liftKey r) :=
  fun p q => inferInstanceAs (Decidable (r p.1 q.1))

instance {κ : Type} (r : κ → κ → Prop) [IsTotal κ r] : IsTotal (κ × Nat) (liftKey r) :=
  ⟨fun a b => IsTotal.total (r := r) a.1 b.1⟩

instance {κ : Type} (r : κ → κ → Prop) [IsTrans κ r] : IsTrans (κ × Nat) (liftKey r) :=
  ⟨fun a b c h1 h2 => IsTrans.trans (r := r) a.1 b.1 c.1 h1 h2⟩

/-- Model of `sort.Slice(summaries, less-by-key)`: the keys of the map are
distinct, so any comparison sort produces the unique key-sorted order. -/
def sortPairs {κ : Type} (r : κ → κ → Prop) [DecidableRel r]
    (l : List (κ × Nat)) : List (κ × Nat) :=
  l.insertionSort (liftKey r)

/-- Model of `sort.Strings(dates)`. -/
def sortStrings (l : List String) : List String :=
  l.insertionSort strLE

/-! ## Git reference model

The go-git library delivers references with a kind tag (direct hash vs
symbolic) and a full name; `Name().IsBranch()` tests for the
`refs/heads/` prefix and `Name().Short()` strips it. -/

/-- Kind of a git reference: a direct hash reference or a symbolic one. -/
inductive ReferenceKind : Type
  | hash : ReferenceKind
  | symbolic : ReferenceKind
deriving DecidableEq

/-- A git reference as delivered by `repo.References()`. -/
structure Reference : Type where
  kind : ReferenceKind
  name : String
  tip : String
deriving DecidableEq

/-- Model of `ref.Name().IsBranch()`: the full name starts with `refs/heads/`. -/
def isBranchName (n : String) : Bool :=
  "refs/heads/".toList.isPrefixOf n.toList

/-- Model of `ref.Name().Short()` for the names the program inspects: strip
the `refs/heads/` prefix (11 characters) when present. -/
def shortName (n : String) : String :=
  if isBranchName n then String.mk (n.toList.drop 11) else n

/-- The guard of the `branches.ForEach` body in `src/main.go`: a reference
is processed unless `!ref.Name().IsBranch()` makes the body return early.
Note the guard inspects only the name, never the reference kind. -/
def refProcessed (r : Reference) : Bool := isBranchName r.name

/-- Result of one `commitIter.ForEach` run: the author dates (already
formatted `YYYY-MM-DD` by `c.Author.When.Format`) of the commits delivered
before iteration ended, and whether iteration ended abnormally (an
iteration error or a recovered panic) instead of completing. -/
structure TraversalResult : Type where
  commits : List String
  interrupted : Bool
deriving DecidableEq

/-- Environment supplying the external go-git and filesystem behaviour:
whether `git.PlainOpen` succeeds on a path, what `repo.References()`
yields (`none` models an enumeration error), what `repo.Log` from a given
reference yields (`none` models a Log error), and whether the output-path
resolution and the three CSV file creations succeed in `main`. -/
structure GitEnv : Type where
  openOk : String → Bool
  refs : String → Option (List Reference)
  log : String → Reference → Option TraversalResult
  absOk : Bool
  writeDetailOk : Bool
  writeDailyOk : Bool
  writeYearlyOk : Bool

/-- The `commitsByDate[dateStr]++` accumulation over the delivered commits. -/
def histogramOf (dates : List String) : List (String × Nat) :=
  dates.foldl (fun m d => insertAdd m d 1) []

/-- Per-repo-and-branch result record (`RepoBranchCommits` in `src/main.go`);
the Go `map[string]int` is the association list `CommitsByDate`. -/
structure RepoBranchCommits : Type where
  RepoName : String
  BranchName : String
  CommitsByDate : List (String × Nat)
deriving DecidableEq

/-- Last path component (model of `filepath.Base` on slash-separated paths). -/
def basename (p : String) : String :=
  String.mk ((p.toList.reverse.takeWhile (fun c => c ≠ '/')).reverse)

/-- Parent path (model of `filepath.Dir` on slash-separated paths). -/
def dirname (p : String) : String :=
  let r := p.toList.reverse
  let base := r.takeWhile (fun c => c ≠ '/')
  if base.length = r.length then "." else String.mk ((r.drop (base.length + 1)).reverse)

/-- Repository display name computed in `processRepo`: the surviving branch
of the `if`/`else` uses the parent directory's base name when the path's
own base name is `.git`, otherwise the path's base name. -/
def repoDisplayName (p : String) : String :=
  if basename p = ".git" then basename (dirname p) else basename p

/-- Body of `branches.ForEach` in `src/main.go` for one reference: skip it
unless its name is a branch name; skip it (with a warning) when `repo.Log`
fails; otherwise fold the delivered commits into a date histogram — kept
even when iteration was interrupted, thanks to the `recover` wrapper — and
emit a record only when the histogram is non-empty. -/
def processBranch (env : GitEnv) (repoPath repoName : String) (r : Reference) :
    List RepoBranchCommits :=
  if refProcessed r then
    match env.log repoPath r with
    | none => []
    | some tr =>
      let commitsByDate := histogramOf tr.commits
      if commitsByDate.length > 0 then
        [⟨repoName, shortName r.name, commitsByDate⟩]
      else []
  else []

/-- The whole `branches.ForEach` loop: each reference's contribution in
enumeration order. -/
def processRefs (env : GitEnv) (repoPath repoName : String)
    (refs : List Reference) : List RepoBranchCommits :=
  refs.flatMap (processBranch env repoPath repoName)

/-- Model of `processRepo` in `src/main.go`: `none` models returning a
non-nil error (open failure or reference-enumeration failure). -/
def processRepo (env : GitEnv) (repoPath : String) :
    Option (List RepoBranchCommits) :=
  if env.openOk repoPath then
    match env.refs repoPath with
    | none => none
    | some rs => some (processRefs env repoPath (repoDisplayName repoPath) rs)
  else none

/-! ## Batch scheduler

`processReposBatch` runs `for i := 0; i < len(repoPaths); i += batchSize`,
slicing `repoPaths[i:min(i+batchSize,len)]`, spawning one goroutine per
path in the slice and joining the whole slice before advancing.  Within a
slice each goroutine appends its whole per-repository result slice to the
shared `results` under the mutex, in completion order, which Go does not
determine.  `batchLoop` fixes one representative interleaving (slice
order); `batchLoopSched` exposes the nondeterminism through an explicit
completion schedule that reorders each chunk.  Both loops are modelled
with explicit fuel so that non-termination for `batchSize = 0` is
expressible: `none` means the loop performed `fuel` iterations without
terminating. -/

/-- Contribution of a list of paths processed in order: a failed
`processRepo` is logged and contributes nothing. -/
def processList (env : GitEnv) (paths : List String) : List RepoBranchCommits :=
  paths.flatMap (fun p => (processRepo env p).getD [])

/-- Fuel-indexed model of the batch loop of `processReposBatch`. -/
def batchLoop (env : GitEnv) (paths : List String) (batchSize : Nat) :
    Nat → Nat → List RepoBranchCommits → Option (List RepoBranchCommits)
  | 0, _, _ => none
  | fuel + 1, i, acc =>
    if i < paths.length then
      let e := min (i + batchSize) paths.length
      batchLoop env paths batchSize fuel (i + batchSize)
        (acc ++ processList env ((paths.drop i).take (e - i)))
    else
      some acc

/-- Model of `processReposBatch` in `src/main.go`; `paths.length + 1` fuel
covers every terminating run since a positive batch size advances the
index by at least one per iteration. -/
def processReposBatch (env : GitEnv) (paths : List String) (batchSize : Nat) :
    Option (List RepoBranchCommits) :=
  batchLoop env paths batchSize (paths.length + 1) 0 []

/-- Schedule-parameterized batch loop: within a chunk the goroutines'
mutex-protected appends land in completion order, so the chunk contributes
its per-repository result slices in SOME permutation of the chunk.
`sched k batch` gives the completion order of chunk number `k`; a schedule
is admissible when it permutes each chunk. -/
def batchLoopSched (env : GitEnv) (paths : List String) (batchSize : Nat)
    (sched : Nat → List String → List String) :
    Nat → Nat → Nat → List RepoBranchCommits → Option (List RepoBranchCommits)
  | 0, _, _, _ => none
  | fuel + 1, k, i, acc =>
    if i < paths.length then
      let e := min (i + batchSize) paths.length
      batchLoopSched env paths batchSize sched fuel (k + 1) (i + batchSize)
        (acc ++ processList env (sched k ((paths.drop i).take (e - i))))
    else
      some acc

/-- `processReposBatch` under an explicit within-chunk completion order. -/
def processReposBatchSched (env : GitEnv) (paths : List String)
    (batchSize : Nat) (sched : Nat → List String → List String) :
    Option (List RepoBranchCommits) :=
  batchLoopSched env paths batchSize sched (paths.length + 1) 0 0 []

/-- The slice-order completion schedule: goroutines finish in spawn order. -/
def idSched : Nat → List String → List String := fun _ b => b

/-- An admissible completion schedule in which every chunk's goroutines
finish in reverse spawn order. -/
def swapSched : Nat → List String → List String := fun _ b => b.reverse

/-- Exit code of `main` after repository discovery: resolving the absolute
output path or creating any of the three CSV files non-fatally exits 1;
otherwise the run exits 0.  Per-repository failures inside the batch are
never consulted.  `none` propagates a non-terminating batch loop. -/
def pipelineExit (env : GitEnv) (paths : List String) (batchSize : Nat) :
    Option Nat :=
  (processReposBatch env paths batchSize).map (fun _ =>
    if env.absOk = false then 1
    else if env.writeDetailOk = false then 1
    else if env.writeDailyOk = false then 1
    else if env.writeYearlyOk = false then 1
    else 0)

/-! ## Repository locator

`findGitRepos` walks the tree with `filepath.WalkDir`; the callback
receives either a directory entry or a traversal error.  We model the
traversal sequence as a list of `Except`: the callback returns the error
for an errored entry, which makes `WalkDir` stop and return that error. -/

/-- A directory entry as seen by the walk callback. -/
structure WalkEntry : Type where
  path : String
  isDir : Bool
  hasConfig : Bool
  hasHead : Bool
deriving DecidableEq

/-- Classification in the walk callback: a directory containing both a
`config` and a `HEAD` file whose path ends in `.git`. -/
def isRepoRoot (e : WalkEntry) : Bool :=
  e.isDir && e.hasConfig && e.hasHead && ".git".toList.isSuffixOf e.path.toList

/-- The walk over the remaining traversal sequence: an errored entry makes
the callback return the error, aborting the walk with the repositories
collected so far. -/
def walkFold : List (Except String WalkEntry) → List String →
    List String × Option String
  | [], acc => (acc, none)
  | Except.error e :: _, acc => (acc, some e)
  | Except.ok ent :: rest, acc =>
    walkFold rest (if isRepoRoot ent then acc ++ [ent.path] else acc)

/-- Model of `findGitRepos` in `src/main.go` over a traversal sequence. -/
def findGitRepos (entries : List (Except String WalkEntry)) :
    List String × Option String :=
  walkFold entries []

/-! ## Aggregator: the three output views -/

/-- Numeric value of a list of decimal digit characters. -/
def digitsToNat (s : List Char) : Nat :=
  s.foldl (fun n c => n * 10 + (c.toNat - 48)) 0

/-- Gregorian leap-year rule used by Go's `time` package. -/
def isLeapYear (y : Nat) : Bool :=
  (y % 4 = 0 && !(y % 100 = 0)) || y % 400 = 0

/-- Number of days in a month, as validated by `time.Parse`. -/
def daysInMonth (y m : Nat) : Nat :=
  if m = 2 then (if isLeapYear y then 29 else 28)
  else if m = 4 || m = 6 || m = 9 || m = 11 then 30
  else 31

/-- Model of `time.Parse("2006-01-02", s)`: ten characters
`YYYY-MM-DD`, with a valid month and day; returns the year, month, day. -/
def parseDate (s : String) : Option (Nat × Nat × Nat) :=
  match s.toList with
  | [y1, y2, y3, y4, h1, m1, m2, h2, d1, d2] =>
    if y1.isDigit && y2.isDigit && y3.isDigit && y4.isDigit && h1 = '-' &&
        m1.isDigit && m2.isDigit && h2 = '-' && d1.isDigit && d2.isDigit then
      let y := digitsToNat [y1, y2, y3, y4]
      let m := digitsToNat [m1, m2]
      let d := digitsToNat [d1, d2]
      if 1 ≤ m && m ≤ 12 && 1 ≤ d && d ≤ daysInMonth y m then
        some (y, m, d)
      else none
    else none
  | _ => none

/-- The year extracted by `commitDate.Year()` after a successful parse. -/
def parseYear (s : String) : Option Nat := (parseDate s).map (fun t => t.1)

/-- Rows written by `writeCommitInfoCSV` for one `RepoBranchCommits`: the
map's dates collected, sorted with `sort.Strings`, each looked up. -/
def detailBlock (r : RepoBranchCommits) : List (String × String × String × Nat) :=
  (sortStrings (mapKeys r.CommitsByDate)).map
    (fun d => (d, r.RepoName, r.BranchName, lookupD r.CommitsByDate d))

/-- All rows written by `writeCommitInfoCSV`, in `results` order. -/
def detailRows (results : List RepoBranchCommits) :
    List (String × String × String × Nat) :=
  results.flatMap detailBlock

/-- The (date, count) entries of all histograms, in traversal order. -/
def allDateEntries (results : List RepoBranchCommits) : List (String × Nat) :=
  results.flatMap (fun r => r.CommitsByDate)

/-- Rows written by `writeSummaryCSV`: the `commitsByDate[date] += count`
accumulation over every histogram, sorted by date. -/
def dailyTotals (results : List RepoBranchCommits) : List (String × Nat) :=
  sortPairs strLE (buildMap (allDateEntries results))

/-- The (year, count) increments fed into `commitsByYear`: entries whose
date fails `time.Parse` are skipped with a warning. -/
def yearEntries (results : List RepoBranchCommits) : List (Nat × Nat) :=
  (allDateEntries results).filterMap
    (fun p => (parseYear p.1).map (fun y => (y, p.2)))

/-- Rows written by `writeYearlySummaryCSV`: the per-year accumulation
sorted by year. -/
def yearlyTotals (results : List RepoBranchCommits) : List (Nat × Nat) :=
  sortPairs (fun a b : Nat => a ≤ b) (buildMap (yearEntries results))

/-- The three aggregated views of a collected result list. -/
def viewsOf (results : List RepoBranchCommits) :
    List (String × String × String × Nat) × List (String × Nat) × List (Nat × Nat) :=
  (detailRows results, dailyTotals results, yearlyTotals results)

/-- Sum of the count column of detail rows. -/
def rowSum (rows : List (String × String × String × Nat)) : Nat :=
  (rows.map (fun row => row.2.2.2)).sum

/-- Total count recorded for key `k` in a list of (key, count) increments. -/
def keyTotal {κ : Type} [DecidableEq κ] (l : List (κ × Nat)) (k : κ) : Nat :=
  ((l.filter (fun p => p.1 = k)).map Prod.snd).sum

/-- Strict version of the key ordering: keys related and distinct. -/
def strictKey {κ : Type} (r : κ → κ → Prop) (p q : κ × Nat) : Prop :=
  r p.1 q.1 ∧ p.1 ≠ q.1

/-- The repositories recognised among the successfully visited entries. -/
def okRepos (entries : List (Except String WalkEntry)) : List String :=
  ((entries.filterMap Except.toOption).filter isRepoRoot).map WalkEntry.path

/-! ## Concrete fixtures used in closed instantiations -/

/-- Histogram fixture: repository A, branch main, the scenario of the spec. -/
def histA : RepoBranchCommits := ⟨"A", "main", [("2024-01-01", 2), ("2024-01-02", 1)]⟩

/-- Histogram fixture: repository B, branch main. -/
def histB : RepoBranchCommits := ⟨"B", "main", [("2024-01-01", 1)]⟩

/-- A direct hash reference to a local branch. -/
def refW : Reference := ⟨ReferenceKind.hash, "refs/heads/main", "aaaa"⟩

/-- A direct hash reference to a second local branch. -/
def refDev : Reference := ⟨ReferenceKind.hash, "refs/heads/dev", "bbbb"⟩

/-- A symbolic reference whose name nevertheless lies under refs/heads/. -/
def symRef : Reference := ⟨ReferenceKind.symbolic, "refs/heads/detached", "cccc"⟩

/-- A tag reference. -/
def tagRef : Reference := ⟨ReferenceKind.hash, "refs/tags/v1", "dddd"⟩

/-- A successfully visited directory entry that is a repository root. -/
def entRepo : Except String WalkEntry := Except.ok ⟨"b.git", true, true, true⟩

/-- Environment fixture: every path opens except `bad.git`; one branch per
repository; one commit per branch, dated by repository. -/
def envW : GitEnv :=
  { openOk := fun p => !(p == "bad.git")
    refs := fun _ => some [refW]
    log := fun p _ =>
      some ⟨[if p == "a.git" then "2024-01-01" else "2024-01-02"], false⟩
    absOk := true
    writeDetailOk := true
    writeDailyOk := true
    writeYearlyOk := true }

/-- Environment fixture: `repo.Log` fails on the dev branch and delivers an
interrupted two-commit traversal on every other branch. -/
def envS : GitEnv :=
  { openOk := fun _ => true
    refs := fun _ => some [refDev, refW]
    log := fun _ r =>
      if r.name == "refs/heads/dev" then none
      else some ⟨["2024-01-01", "2024-01-01"], true⟩
    absOk := true
    writeDetailOk := true
    writeDailyOk := true
    writeYearlyOk := true }

/-! ## Lemmas about the association-list map -/

section MapLemmas

variable {κ : Type} [DecidableEq κ]

theorem sumValues_insertAdd (m : List (κ × Nat)) (k : κ) (v : Nat) :
    sumValues (insertAdd m k v) = sumValues m + v := by
  induction m with
  | nil => simp [insertAdd, sumValues]
  | cons p rest ih =>
    obtain ⟨k', v'⟩ := p
    by_cases h : k = k' <;> simp [insertAdd, sumValues, h] at ih ⊢ <;> omega

theorem mem_mapKeys_insertAdd (m : List (κ × Nat)) (k k' : κ) (v : Nat) :
    k' ∈ mapKeys (insertAdd m k v) ↔ k' ∈ mapKeys m ∨ k' = k := by
  induction m with
  | nil => simp [insertAdd, mapKeys]
  | cons p rest ih =>
    obtain ⟨k0, v0⟩ := p
    by_cases h : k = k0 <;> simp [insertAdd, mapKeys, h] at ih ⊢
    · subst h; tauto
    · rw [ih]; tauto

theorem nodup_mapKeys_insertAdd (m : List (κ × Nat)) (k : κ) (v : Nat)
    (hm : (mapKeys m).Nodup) : (mapKeys (insertAdd m k v)).Nodup := by
  induction m with
  | nil => simp [insertAdd, mapKeys]
  | cons p rest ih =>
    obtain ⟨k0, v0⟩ := p
    simp only [mapKeys, List.map_cons, List.nodup_cons] at hm
    by_cases h : k = k0
    · simpa [insertAdd, mapKeys, h] using hm
    · simp only [insertAdd, if_neg h, mapKeys, List.map_cons, List.nodup_cons]
      refine ⟨fun hmem => ?_, ih hm.2⟩
      rcases (mem_mapKeys_insertAdd rest k k0 v).1 hmem with h1 | h1
      · exact hm.1 h1
      · exact h (h1.symm)

theorem lookupD_insertAdd (m : List (κ × Nat)) (k k' : κ) (v : Nat) :
    lookupD (insertAdd m k v) k' = lookupD m k' + (if k' = k then v else 0) := by
  induction m with
  | nil =>
    by_cases h : k' = k <;> simp [insertAdd, lookupD, h]
  | cons p rest ih =>
    obtain ⟨k0, v0⟩ := p
    by_cases h : k = k0
    · subst h
      by_cases h' : k' = k
      · simp [insertAdd, lookupD, h']
      · simp [insertAdd, lookupD, h']
    · by_cases h' : k' = k0
      · subst h'
        have : ¬ k' = k := fun he => h he.symm
        simp [insertAdd, if_neg h, lookupD, this]
      · simp [insertAdd, if_neg h, lookupD, h', ih]

theorem lookupD_eq_zero_of_not_mem (m : List (κ × Nat)) (k : κ)
    (h : k ∉ mapKeys m) : lookupD m k = 0 := by
  induction m with
  | nil => simp [lookupD]
  | cons p rest ih =>
    obtain ⟨k0, v0⟩ := p
    simp only [mapKeys, List.map_cons, List.mem_cons] at h
    push_neg at h
    simp [lookupD, h.1, ih (by simpa [mapKeys] using h.2)]

theorem mem_of_nodup_lookupD (m : List (κ × Nat)) (k : κ) (v : Nat)
    (hm : (mapKeys m).Nodup) :
    (k, v) ∈ m ↔ k ∈ mapKeys m ∧ v = lookupD m k := by
  induction m with
  | nil => simp [mapKeys, lookupD]
  | cons p rest ih =>
    obtain ⟨k0, v0⟩ := p
    simp only [mapKeys, List.map_cons, List.nodup_cons] at hm
    constructor
    · intro hmem
      rcases List.mem_cons.mp hmem with he | hmem
      · obtain ⟨hk, hv⟩ := Prod.mk.inj he
        subst hk; subst hv
        exact ⟨List.mem_cons_self _ _, by simp [lookupD]⟩
      · have hk : k ∈ mapKeys rest := List.mem_map_of_mem Prod.fst hmem
        have hkk0 : k ≠ k0 := fun he => hm.1 (he ▸ hk)
        have hrest := (ih hm.2).mp hmem
        exact ⟨List.mem_cons.mpr (Or.inr hrest.1),
          by simp [lookupD, hkk0, hrest.2]⟩
    · rintro ⟨hk, hv⟩
      by_cases h : k = k0
      · subst h
        have hvv : v = v0 := by simpa [lookupD] using hv
        exact List.mem_cons.mpr (Or.inl (by rw [hvv]))
      · have hk' : k ∈ mapKeys rest := by
          rcases List.mem_cons.mp hk with h1 | h1
          · exact absurd h1 h
          · exact h1
        have hv' : v = lookupD rest k := by simpa [lookupD, h] using hv
        exact List.mem_cons.mpr (Or.inr ((ih hm.2).mpr ⟨hk', hv'⟩))

theorem lookupD_foldl_insertAdd (l : List (κ × Nat)) (m : List (κ × Nat)) (k : κ) :
    lookupD (l.foldl (fun m p => insertAdd m p.1 p.2) m) k =
      lookupD m k + keyTotal l k := by
  induction l generalizing m with
  | nil => simp [keyTotal]
  | cons p rest ih =>
    obtain ⟨k0, v0⟩ := p
    simp only [List.foldl_cons, ih, lookupD_insertAdd, keyTotal]
    by_cases h : k0 = k
    · subst h; simp; omega
    · have : ¬ k = k0 := fun he => h he.symm
      simp [h, this]

theorem lookupD_buildMap (l : List (κ × Nat)) (k : κ) :
    lookupD (buildMap l) k = keyTotal l k := by
  simpa [buildMap, lookupD] using lookupD_foldl_insertAdd l [] k

theorem nodup_mapKeys_foldl (l : List (κ × Nat)) (m : List (κ × Nat))
    (hm : (mapKeys m).Nodup) :
    (mapKeys (l.foldl (fun m p => insertAdd m p.1 p.2) m)).Nodup := by
  induction l generalizing m with
  | nil => simpa
  | cons p rest ih =>
    exact ih _ (nodup_mapKeys_insertAdd m p.1 p.2 hm)

theorem nodup_mapKeys_buildMap (l : List (κ × Nat)) :
    (mapKeys (buildMap l)).Nodup :=
  nodup_mapKeys_foldl l [] (by simp [mapKeys])

theorem mem_mapKeys_foldl (l : List (κ × Nat)) (m : List (κ × Nat)) (k : κ) :
    k ∈ mapKeys (l.foldl (fun m p => insertAdd m p.1 p.2) m) ↔
      k ∈ mapKeys m ∨ k ∈ l.map Prod.fst := by
  induction l generalizing m with
  | nil => simp
  | cons p rest ih =>
    simp only [List.foldl_cons, ih, mem_mapKeys_insertAdd, List.map_cons,
      List.mem_cons]
    tauto

theorem mem_mapKeys_buildMap (l : List (κ × Nat)) (k : κ) :
    k ∈ mapKeys (buildMap l) ↔ k ∈ l.map Prod.fst := by
  simpa [buildMap, mapKeys] using mem_mapKeys_foldl l [] k

theorem sumValues_foldl (l : List (κ × Nat)) (m : List (κ × Nat)) :
    sumValues (l.foldl (fun m p => insertAdd m p.1 p.2) m) =
      sumValues m + (l.map Prod.snd).sum := by
  induction l generalizing m with
  | nil => simp
  | cons p rest ih =>
    simp only [List.foldl_cons, ih, sumValues_insertAdd, List.map_cons,
      List.sum_cons]
    omega

theorem sumValues_buildMap (l : List (κ × Nat)) :
    sumValues (buildMap l) = (l.map Prod.snd).sum := by
  simpa [buildMap, sumValues] using sumValues_foldl l []

end MapLemmas

/-! ## Order properties of the string comparison -/

theorem lexLE_total : ∀ as bs : List Char, lexLE as bs = true ∨ lexLE bs as = true
  | [], _ => Or.inl rfl
  | _ :: _, [] => Or.inr rfl
  | a :: as, b :: bs => by
    rcases lt_trichotomy a b with h | h | h
    · left; simp [lexLE, h]
    · subst h
      rcases lexLE_total as bs with h1 | h1
      · left; simp [lexLE, lt_irrefl, h1]
      · right; simp [lexLE, lt_irrefl, h1]
    · right; simp [lexLE, h]

theorem lexLE_cases {a b : Char} {as bs : List Char}
    (h : lexLE (a :: as) (b :: bs) = true) :
    a < b ∨ (a = b ∧ lexLE as bs = true) := by
  by_cases hab : a < b
  · exact Or.inl hab
  · by_cases hba : b < a
    · simp [lexLE, hab, hba] at h
    · exact Or.inr ⟨le_antisymm (not_lt.mp hba) (not_lt.mp hab),
        by simpa [lexLE, hab, hba] using h⟩

theorem lexLE_trans : ∀ as bs cs : List Char,
    lexLE as bs = true → lexLE bs cs = true → lexLE as cs = true
  | [], _, _ => fun _ _ => rfl
  | _ :: _, [], _ => fun h _ => by simp [lexLE] at h
  | _ :: _, _ :: _, [] => fun _ h => by simp [lexLE] at h
  | a :: as, b :: bs, c :: cs => fun h1 h2 => by
    rcases lexLE_cases h1 with hab | ⟨hab, h1'⟩
    · rcases lexLE_cases h2 with hbc | ⟨hbc, _⟩
      · simp [lexLE, lt_trans hab hbc]
      · subst hbc; simp [lexLE, hab]
    · subst hab
      rcases lexLE_cases h2 with hbc | ⟨hbc, h2'⟩
      · simp [lexLE, hbc]
      · subst hbc
        simp [lexLE, lt_irrefl, lexLE_trans as bs cs h1' h2']

theorem lexLE_antisymm : ∀ as bs : List Char,
    lexLE as bs = true → lexLE bs as = true → as = bs
  | [], [] => fun _ _ => rfl
  | [], _ :: _ => fun _ h => by simp [lexLE] at h
  | _ :: _, [] => fun h _ => by simp [lexLE] at h
  | a :: as, b :: bs => fun h1 h2 => by
    rcases lexLE_cases h1 with hab | ⟨hab, h1'⟩
    · rcases lexLE_cases h2 with hba | ⟨hba, _⟩
      · exact absurd (lt_trans hab hba) (lt_irrefl a)
      · exact absurd hab (hba ▸ lt_irrefl a)
    · subst hab
      rcases lexLE_cases h2 with hba | ⟨_, h2'⟩
      · exact absurd hba (lt_irrefl a)
      · rw [lexLE_antisymm as bs h1' h2']

theorem strLE_antisymm (a b : String) (h1 : strLE a b) (h2 : strLE b a) :
    a = b := by
  have h := lexLE_antisymm a.toList b.toList h1 h2
  cases a with
  | mk da =>
    cases b with
    | mk db => exact congrArg String.mk h

/-! ## Uniqueness of the key-sorted output -/

theorem sortPairs_pairwise_strict {κ : Type} (r : κ → κ → Prop)
    [DecidableRel r] (htotal : ∀ a b, r a b ∨ r b a)
    (htrans : ∀ a b c, r a b → r b c → r a c) (m : List (κ × Nat))
    (hm : (mapKeys m).Nodup) :
    List.Pairwise (strictKey r) (sortPairs r m) := by
  haveI : IsTotal κ r := ⟨htotal⟩
  haveI : IsTrans κ r := ⟨htrans⟩
  have hs : List.Sorted (liftKey r) (sortPairs r m) :=
    List.sorted_insertionSort _ m
  have hperm : List.Perm (sortPairs r m) m := List.perm_insertionSort _ m
  have hn : (mapKeys (sortPairs r m)).Nodup :=
    ((hperm.map Prod.fst).nodup_iff).mpr hm
  have hne : List.Pairwise (fun p q : κ × Nat => p.1 ≠ q.1) (sortPairs r m) :=
    List.pairwise_map.mp hn
  exact hs.and hne

theorem sortPairs_eq_of_perm {κ : Type} (r : κ → κ → Prop)
    [DecidableRel r] (htotal : ∀ a b, r a b ∨ r b a)
    (htrans : ∀ a b c, r a b → r b c → r a c)
    (hanti : ∀ a b, r a b → r b a → a = b) (m1 m2 : List (κ × Nat))
    (h1 : (mapKeys m1).Nodup) (h2 : (mapKeys m2).Nodup) (hp : List.Perm m1 m2) :
    sortPairs r m1 = sortPairs r m2 := by
  haveI : IsAntisymm (κ × Nat) (strictKey r) :=
    ⟨fun a b ha hb => absurd (hanti _ _ ha.1 hb.1) ha.2⟩
  exact List.eq_of_perm_of_sorted
    ((List.perm_insertionSort _ m1).trans
      (hp.trans (List.perm_insertionSort _ m2).symm))
    (sortPairs_pairwise_strict r htotal htrans m1 h1)
    (sortPairs_pairwise_strict r htotal htrans m2 h2)

theorem buildMap_perm {κ : Type} [DecidableEq κ] (l1 l2 : List (κ × Nat))
    (hp : List.Perm l1 l2) : List.Perm (buildMap l1) (buildMap l2) := by
  have n1k := nodup_mapKeys_buildMap l1
  have n2k := nodup_mapKeys_buildMap l2
  have n1 : (buildMap l1).Nodup := List.Nodup.of_map Prod.fst n1k
  have n2 : (buildMap l2).Nodup := List.Nodup.of_map Prod.fst n2k
  rw [List.perm_ext_iff_of_nodup n1 n2]
  rintro ⟨k, v⟩
  rw [mem_of_nodup_lookupD _ _ _ n1k, mem_of_nodup_lookupD _ _ _ n2k,
    lookupD_buildMap, lookupD_buildMap,
    mem_mapKeys_buildMap, mem_mapKeys_buildMap]
  have htot : keyTotal l1 k = keyTotal l2 k :=
    List.Perm.sum_eq ((hp.filter (fun p => p.1 = k)).map Prod.snd)
  rw [(hp.map Prod.fst).mem_iff, htot]

/-! ## Aggregation lemmas -/

theorem dailyTotals_perm (r1 r2 : List RepoBranchCommits)
    (hp : List.Perm r1 r2) : dailyTotals r1 = dailyTotals r2 := by
  have he : List.Perm (allDateEntries r1) (allDateEntries r2) :=
    List.Perm.flatMap_right _ hp
  exact sortPairs_eq_of_perm strLE
    (fun a b => lexLE_total a.toList b.toList)
    (fun a b c => lexLE_trans a.toList b.toList c.toList)
    strLE_antisymm _ _
    (nodup_mapKeys_buildMap _) (nodup_mapKeys_buildMap _)
    (buildMap_perm _ _ he)

theorem yearlyTotals_perm (r1 r2 : List RepoBranchCommits)
    (hp : List.Perm r1 r2) : yearlyTotals r1 = yearlyTotals r2 := by
  have he : List.Perm (allDateEntries r1) (allDateEntries r2) :=
    List.Perm.flatMap_right _ hp
  have hy : List.Perm (yearEntries r1) (yearEntries r2) := he.filterMap _
  exact sortPairs_eq_of_perm (fun a b : Nat => a ≤ b)
    (fun a b => le_total a b) (fun a b c ha hb => le_trans ha hb)
    (fun a b ha hb => le_antisymm ha hb) _ _
    (nodup_mapKeys_buildMap _) (nodup_mapKeys_buildMap _)
    (buildMap_perm _ _ hy)

theorem sum_lookupD_mapKeys {κ : Type} [DecidableEq κ] (m : List (κ × Nat))
    (hm : (mapKeys m).Nodup) :
    ((mapKeys m).map (lookupD m)).sum = sumValues m := by
  induction m with
  | nil => simp [mapKeys, sumValues]
  | cons p rest ih =>
    obtain ⟨k0, v0⟩ := p
    simp only [mapKeys, List.map_cons, List.nodup_cons] at hm
    have hmap : (mapKeys rest).map (lookupD ((k0, v0) :: rest)) =
        (mapKeys rest).map (lookupD rest) := by
      apply List.map_congr_left
      intro k hk
      have hne : ¬ k = k0 := fun he => hm.1 (he ▸ hk)
      simp [lookupD, hne]
    have hih := ih hm.2
    simp only [mapKeys, List.map_cons, List.sum_cons, sumValues] at hih ⊢
    rw [show lookupD ((k0, v0) :: rest) k0 = v0 by simp [lookupD]]
    rw [show List.map (lookupD ((k0, v0) :: rest)) (List.map Prod.fst rest) =
      List.map (lookupD rest) (List.map Prod.fst rest) from hmap]
    rw [hih]

theorem rowSum_detailBlock (r : RepoBranchCommits)
    (hm : (mapKeys r.CommitsByDate).Nodup) :
    rowSum (detailBlock r) = sumValues r.CommitsByDate := by
  unfold rowSum detailBlock
  rw [List.map_map]
  have hperm : List.Perm (sortStrings (mapKeys r.CommitsByDate))
      (mapKeys r.CommitsByDate) := List.perm_insertionSort _ _
  rw [List.Perm.sum_eq (hperm.map _)]
  exact sum_lookupD_mapKeys _ hm

theorem rowSum_detailRows (results : List RepoBranchCommits)
    (h : ∀ r ∈ results, (mapKeys r.CommitsByDate).Nodup) :
    rowSum (detailRows results) = ((allDateEntries results).map Prod.snd).sum := by
  induction results with
  | nil => simp [detailRows, rowSum, allDateEntries]
  | cons r rest ih =>
    have hr := h r (List.mem_cons_self _ _)
    have hrest := ih (fun q hq => h q (List.mem_cons.mpr (Or.inr hq)))
    simp only [detailRows, List.flatMap_cons, allDateEntries] at hrest ⊢
    simp only [rowSum, List.map_append, List.sum_append] at hrest ⊢
    rw [show ((detailBlock r).map (fun row => row.2.2.2)).sum =
      rowSum (detailBlock r) from rfl, rowSum_detailBlock r hr, hrest]
    rfl

theorem sumValues_sortPairs {κ : Type} (r : κ → κ → Prop) [DecidableRel r]
    (m : List (κ × Nat)) : sumValues (sortPairs r m) = sumValues m := by
  have hperm : List.Perm (sortPairs r m) m := List.perm_insertionSort _ _
  exact List.Perm.sum_eq (hperm.map Prod.snd)

theorem sumValues_dailyTotals (results : List RepoBranchCommits) :
    sumValues (dailyTotals results) =
      ((allDateEntries results).map Prod.snd).sum := by
  unfold dailyTotals
  rw [sumValues_sortPairs, sumValues_buildMap]

theorem sumValues_yearlyTotals (results : List RepoBranchCommits) :
    sumValues (yearlyTotals results) = ((yearEntries results).map Prod.snd).sum := by
  unfold yearlyTotals
  rw [sumValues_sortPairs, sumValues_buildMap]

theorem yearEntries_snd (l : List (String × Nat))
    (hp : ∀ p ∈ l, (parseYear p.1).isSome = true) :
    ((l.filterMap (fun p => (parseYear p.1).map (fun y => (y, p.2)))).map
      Prod.snd) = l.map Prod.snd := by
  induction l with
  | nil => rfl
  | cons p rest ih =>
    rcases Option.isSome_iff_exists.mp (hp p (List.mem_cons_self _ _)) with ⟨y, hy⟩
    have hrest := ih (fun q hq => hp q (List.mem_cons.mpr (Or.inr hq)))
    simp [List.filterMap_cons, hy, hrest]

/-! ## Scheduler lemmas -/

theorem processList_append (env : GitEnv) (l1 l2 : List String) :
    processList env (l1 ++ l2) = processList env l1 ++ processList env l2 :=
  List.flatMap_append l1 l2 _

theorem batchLoop_terminates (env : GitEnv) (paths : List String) (B : Nat)
    (hB : 1 ≤ B) : ∀ fuel i acc, paths.length - i < fuel →
      batchLoop env paths B fuel i acc =
        some (acc ++ processList env (paths.drop i)) := by
  intro fuel
  induction fuel with
  | zero => intro i acc h; omega
  | succ fuel ih =>
    intro i acc h
    by_cases hi : i < paths.length
    · simp only [batchLoop, if_pos hi]
      rw [ih (i + B) _ (by omega)]
      have htake : (paths.drop i).take (min (i + B) paths.length - i) =
          (paths.drop i).take B := by
        rcases le_or_lt (i + B) paths.length with hle | hlt
        · rw [min_eq_left hle]
          congr 1
          omega
        · rw [min_eq_right (le_of_lt hlt)]
          rw [List.take_of_length_le (le_of_eq (List.length_drop i paths)),
            List.take_of_length_le (by rw [List.length_drop]; omega)]
      have hsplit : processList env ((paths.drop i).take B) ++
          processList env (paths.drop (i + B)) =
          processList env (paths.drop i) := by
        rw [← processList_append]
        rw [show paths.drop (i + B) = (paths.drop i).drop B by
          rw [List.drop_drop]]
        rw [List.take_append_drop]
      rw [htake, List.append_assoc, hsplit]
    · simp only [batchLoop, if_neg hi]
      rw [List.drop_eq_nil_of_le (by omega)]
      simp [processList]

theorem processReposBatch_pos (env : GitEnv) (paths : List String) (B : Nat)
    (hB : 1 ≤ B) : processReposBatch env paths B = some (processList env paths) := by
  unfold processReposBatch
  rw [batchLoop_terminates env paths B hB (paths.length + 1) 0 [] (by omega)]
  simp

theorem batchLoopSched_perm (env : GitEnv) (paths : List String) (B : Nat)
    (sched : Nat → List String → List String) (hB : 1 ≤ B)
    (hs : ∀ k b, List.Perm (sched k b) b) :
    ∀ fuel k i acc, paths.length - i < fuel →
      ∃ res, batchLoopSched env paths B sched fuel k i acc = some res ∧
        List.Perm res (acc ++ processList env (paths.drop i)) := by
  intro fuel
  induction fuel with
  | zero => intro k i acc h; omega
  | succ fuel ih =>
    intro k i acc h
    by_cases hi : i < paths.length
    · simp only [batchLoopSched, if_pos hi]
      obtain ⟨res, hres, hperm⟩ := ih (k + 1) (i + B)
        (acc ++ processList env
          (sched k ((paths.drop i).take (min (i + B) paths.length - i))))
        (by omega)
      refine ⟨res, hres, ?_⟩
      have htake : (paths.drop i).take (min (i + B) paths.length - i) =
          (paths.drop i).take B := by
        rcases le_or_lt (i + B) paths.length with hle | hlt
        · rw [min_eq_left hle]
          congr 1
          omega
        · rw [min_eq_right (le_of_lt hlt)]
          rw [List.take_of_length_le (le_of_eq (List.length_drop i paths)),
            List.take_of_length_le (by rw [List.length_drop]; omega)]
      have hchunk : List.Perm
          (processList env
            (sched k ((paths.drop i).take (min (i + B) paths.length - i))))
          (processList env ((paths.drop i).take B)) := by
        rw [htake]
        exact List.Perm.flatMap_right _ (hs k _)
      have hsplit : processList env ((paths.drop i).take B) ++
          processList env (paths.drop (i + B)) =
          processList env (paths.drop i) := by
        rw [← processList_append]
        rw [show paths.drop (i + B) = (paths.drop i).drop B by
          rw [List.drop_drop]]
        rw [List.take_append_drop]
      have h1 : List.Perm
          ((acc ++ processList env
            (sched k ((paths.drop i).take (min (i + B) paths.length - i)))) ++
            processList env (paths.drop (i + B)))
          ((acc ++ processList env ((paths.drop i).take B)) ++
            processList env (paths.drop (i + B))) :=
        (hchunk.append_left acc).append_right _
      have h2 : List.Perm
          ((acc ++ processList env ((paths.drop i).take B)) ++
            processList env (paths.drop (i + B)))
          (acc ++ processList env (paths.drop i)) := by
        rw [List.append_assoc, hsplit]
      exact hperm.trans (h1.trans h2)
    · simp only [batchLoopSched, if_neg hi]
      refine ⟨acc, rfl, ?_⟩
      rw [List.drop_eq_nil_of_le (by omega)]
      simp [processList]

theorem processReposBatchSched_perm (env : GitEnv) (paths : List String)
    (B : Nat) (sched : Nat → List String → List String) (hB : 1 ≤ B)
    (hs : ∀ k b, List.Perm (sched k b) b) :
    ∃ res, processReposBatchSched env paths B sched = some res ∧
      List.Perm res (processList env paths) := by
  obtain ⟨res, hres, hperm⟩ := batchLoopSched_perm env paths B sched hB hs
    (paths.length + 1) 0 0 [] (by omega)
  exact ⟨res, hres, by simpa using hperm⟩

theorem batchLoop_zero_stuck (env : GitEnv) (paths : List String)
    (h : paths ≠ []) : ∀ fuel acc, batchLoop env paths 0 fuel 0 acc = none := by
  have hl : 0 < paths.length := List.length_pos.mpr h
  intro fuel
  induction fuel with
  | zero => intro acc; rfl
  | succ fuel ih =>
    intro acc
    simp only [batchLoop, if_pos hl]
    simpa [processList] using ih _

/-! ## Locator lemmas -/

theorem walkFold_no_error (entries : List (Except String WalkEntry))
    (h : ∀ e ∈ entries, ∃ ent, e = Except.ok ent) :
    ∀ acc, walkFold entries acc = (acc ++ okRepos entries, none) := by
  induction entries with
  | nil => intro acc; simp [walkFold, okRepos]
  | cons e rest ih =>
    intro acc
    rcases h e (List.mem_cons_self _ _) with ⟨ent, rfl⟩
    have hrest := ih (fun x hx => h x (List.mem_cons.mpr (Or.inr hx)))
    by_cases hr : isRepoRoot ent
    · simp only [walkFold, if_pos hr]
      rw [hrest]
      simp [okRepos, List.filterMap_cons, Except.toOption, hr]
    · simp only [walkFold, if_neg hr]
      rw [hrest]
      simp [okRepos, List.filterMap_cons, Except.toOption, hr]

theorem walkFold_error (pre : List (Except String WalkEntry)) (e : String)
    (post : List (Except String WalkEntry))
    (hpre : ∀ x ∈ pre, ∃ ent, x = Except.ok ent) :
    ∀ acc, walkFold (pre ++ Except.error e :: post) acc =
      (acc ++ okRepos pre, some e) := by
  induction pre with
  | nil => intro acc; simp [walkFold, okRepos]
  | cons x rest ih =>
    intro acc
    rcases hpre x (List.mem_cons_self _ _) with ⟨ent, rfl⟩
    have hrest := ih (fun y hy => hpre y (List.mem_cons.mpr (Or.inr hy)))
    by_cases hr : isRepoRoot ent
    · simp only [List.cons_append, walkFold, if_pos hr, List.append_eq]
      rw [hrest]
      simp [okRepos, List.filterMap_cons, Except.toOption, hr]
    · simp only [List.cons_append, walkFold, if_neg hr, List.append_eq]
      rw [hrest]
      simp [okRepos, List.filterMap_cons, Except.toOption, hr]

/-! ## Extractor lemmas -/

theorem processBranch_skip_nonbranch (env : GitEnv) (p n : String)
    (r : Reference) (h : isBranchName r.name = false) :
    processBranch env p n r = [] := by
  simp [processBranch, refProcessed, h]

theorem processBranch_skip_logfail (env : GitEnv) (p n : String)
    (r : Reference) (h : env.log p r = none) :
    processBranch env p n r = [] := by
  by_cases hb : refProcessed r <;> simp [processBranch, hb, h]

theorem processRefs_append (env : GitEnv) (p n : String)
    (l1 l2 : List Reference) :
    processRefs env p n (l1 ++ l2) =
      processRefs env p n l1 ++ processRefs env p n l2 :=
  List.flatMap_append l1 l2 _

theorem processRefs_filter_branch (env : GitEnv) (p n : String)
    (rs : List Reference) :
    processRefs env p n rs =
      processRefs env p n (rs.filter (fun r => isBranchName r.name)) := by
  induction rs with
  | nil => rfl
  | cons r rest ih =>
    by_cases h : isBranchName r.name
    · simp only [processRefs, List.flatMap_cons, List.filter_cons, h,
        if_pos] at ih ⊢
      rw [ih]
    · have hskip := processBranch_skip_nonbranch env p n r (by simpa using h)
      simp only [processRefs, List.flatMap_cons, List.filter_cons, h,
        Bool.false_eq_true, if_neg, hskip, List.nil_append] at ih ⊢
      exact ih

theorem sortStrings_pairwise_strict (l : List String) (h : l.Nodup) :
    List.Pairwise (fun a b => strLE a b ∧ a ≠ b) (sortStrings l) := by
  haveI : IsTotal String strLE := ⟨fun a b => lexLE_total a.toList b.toList⟩
  haveI : IsTrans String strLE :=
    ⟨fun a b c => lexLE_trans a.toList b.toList c.toList⟩
  have hs : List.Sorted strLE (sortStrings l) := List.sorted_insertionSort _ l
  have hperm : List.Perm (sortStrings l) l := List.perm_insertionSort _ l
  have hn : (sortStrings l).Nodup := hperm.nodup_iff.mpr h
  exact hs.and hn

theorem detailBlock_dates (r : RepoBranchCommits) :
    (detailBlock r).map (fun row => row.1) =
      sortStrings (mapKeys r.CommitsByDate) := by
  unfold detailBlock
  rw [List.map_map]
  exact List.map_id _

/-! ## The claims -/

/-- C1: for every list of BranchHistograms — whose histograms, being Go
maps, have distinct date keys, and whose dates are well-formed calendar
dates — the three aggregated views conserve the total commit count: the sum
of the detail-row counts equals the sum of the daily-total counts equals
the sum of the yearly-total counts. -/
theorem claim1_count_conservation (results : List RepoBranchCommits)
    (hkeys : ∀ r ∈ results, (mapKeys r.CommitsByDate).Nodup)
    (hdates : ∀ r ∈ results, ∀ p ∈ r.CommitsByDate,
      (parseYear p.1).isSome = true) :
    rowSum (detailRows results) = sumValues (dailyTotals results) ∧
      sumValues (dailyTotals results) = sumValues (yearlyTotals results) := by
  have hall : ∀ p ∈ allDateEntries results, (parseYear p.1).isSome = true := by
    intro p hp
    rcases List.mem_flatMap.mp hp with ⟨r, hr, hpr⟩
    exact hdates r hr p hpr
  constructor
  · rw [rowSum_detailRows results hkeys, sumValues_dailyTotals]
  · rw [sumValues_dailyTotals, sumValues_yearlyTotals]
    exact (congrArg List.sum (yearEntries_snd (allDateEntries results) hall)).symm

theorem claim1_count_conservation_witness :
    (∀ r ∈ [histA, histB], (mapKeys r.CommitsByDate).Nodup) ∧
      rowSum (detailRows [histA, histB]) = sumValues (dailyTotals [histA, histB]) ∧
      sumValues (dailyTotals [histA, histB]) =
        sumValues (yearlyTotals [histA, histB]) :=
  ⟨by decide, claim1_count_conservation [histA, histB] (by decide) (by decide)⟩

/-- C2 counterexample: within a chunk the goroutines append to the shared
`results` under the mutex in completion order, which Go does not
determine.  Under the admissible completion order that reverses each chunk
(a permutation of the chunk, as the stated conjunct checks for the one
chunk that arises), batch size 1 — whose chunks are singletons, so every
completion order gives path order — and batch size 3 yield different
aggregated reports on the same two repositories: the detail view follows
the collected order, so it differs.  The three views are therefore not
batch-size-invariant in the concurrent scheduler, against the claim. -/
theorem claim2_counterexample :
    List.Perm (swapSched 0 ["a.git", "b.git"]) ["a.git", "b.git"] ∧
      (processReposBatchSched envW ["a.git", "b.git"] 1 swapSched).map
          detailRows ≠
        (processReposBatchSched envW ["a.git", "b.git"] 3 swapSched).map
          detailRows := by
  constructor
  · decide
  · decide

/-- C2 amended: for every positive batch size and every admissible
within-chunk completion order (each chunk's appends are some permutation
of the chunk), the scheduler terminates and collects a permutation of the
in-order per-repository contributions — so any two such runs collect
permutations of each other and their daily-totals and yearly-totals views
are byte-identical; the detail view, which follows collected order, need
not be. -/
theorem claim2_sorted_views_batch_invariant (env : GitEnv)
    (paths : List String) (B1 B2 : Nat)
    (sched1 sched2 : Nat → List String → List String)
    (h1 : 1 ≤ B1) (h2 : 1 ≤ B2)
    (hs1 : ∀ k b, List.Perm (sched1 k b) b)
    (hs2 : ∀ k b, List.Perm (sched2 k b) b) :
    ∃ r1 r2, processReposBatchSched env paths B1 sched1 = some r1 ∧
      processReposBatchSched env paths B2 sched2 = some r2 ∧
      List.Perm r1 r2 ∧ dailyTotals r1 = dailyTotals r2 ∧
      yearlyTotals r1 = yearlyTotals r2 := by
  obtain ⟨r1, hr1, hp1⟩ := processReposBatchSched_perm env paths B1 sched1 h1 hs1
  obtain ⟨r2, hr2, hp2⟩ := processReposBatchSched_perm env paths B2 sched2 h2 hs2
  have hp : List.Perm r1 r2 := hp1.trans hp2.symm
  exact ⟨r1, r2, hr1, hr2, hp, dailyTotals_perm _ _ hp, yearlyTotals_perm _ _ hp⟩

theorem claim2_sorted_views_batch_invariant_witness :
    ∃ r1 r2,
      processReposBatchSched envW ["a.git", "bad.git", "b.git"] 1 idSched =
          some r1 ∧
        processReposBatchSched envW ["a.git", "bad.git", "b.git"] 3 swapSched =
          some r2 ∧
        List.Perm r1 r2 ∧ dailyTotals r1 = dailyTotals r2 ∧
        yearlyTotals r1 = yearlyTotals r2 :=
  claim2_sorted_views_batch_invariant envW ["a.git", "bad.git", "b.git"] 1 3
    idSched swapSched (by decide) (by decide)
    (fun _ b => List.Perm.refl b) (fun _ b => List.reverse_perm b)

/-- C3 counterexample: the detail-row view is NOT input-order independent.
Swapping two histograms (a permutation of the input list) permutes the
detail-row blocks, so the detail output differs even though the claim says
all three views are byte-identical under permutation. -/
theorem claim3_counterexample :
    List.Perm [histA, histB] [histB, histA] ∧
      detailRows [histA, histB] ≠ detailRows [histB, histA] :=
  ⟨List.Perm.swap histB histA [], by decide⟩

/-- C3 amended: the daily-totals and yearly-totals views are identical for
any two permutations of the same input list of BranchHistograms; the
detail-row view, however, keeps the input order of the histograms (only
the dates inside each histogram's block are sorted), so it is not
order-independent. -/
theorem claim3_sorted_views_perm_invariant (r1 r2 : List RepoBranchCommits)
    (hp : List.Perm r1 r2) :
    dailyTotals r1 = dailyTotals r2 ∧ yearlyTotals r1 = yearlyTotals r2 :=
  ⟨dailyTotals_perm r1 r2 hp, yearlyTotals_perm r1 r2 hp⟩

theorem claim3_sorted_views_perm_invariant_witness :
    dailyTotals [histA, histB] = dailyTotals [histB, histA] ∧
      yearlyTotals [histA, histB] = yearlyTotals [histB, histA] :=
  claim3_sorted_views_perm_invariant [histA, histB] [histB, histA]
    (List.Perm.swap histB histA [])

/-- C4 counterexample: a traversal error on a single entry DOES abort the
whole walk in `findGitRepos`: with an errored first entry followed by a
perfectly good repository directory, the locator returns the error and an
empty repository list — the repository found elsewhere is not returned,
contradicting skip-and-log. -/
theorem claim4_counterexample :
    findGitRepos [Except.error "permission denied", entRepo] =
        ([], some "permission denied") ∧
      findGitRepos [Except.error "permission denied", entRepo] ≠
        (["b.git"], none) := by
  constructor
  · rfl
  · decide

/-- C4 amended: a per-entry traversal error aborts the whole walk — the
callback returns the error, `WalkDir` stops, and `findGitRepos` returns
that first error together with only the repositories found before it;
the full repository list comes back (with no error) only when no entry of
the traversal errs. -/
theorem claim4_walk_aborts_on_entry_error
    (pre post : List (Except String WalkEntry)) (e : String)
    (hpre : ∀ x ∈ pre, ∃ ent, x = Except.ok ent) :
    findGitRepos (pre ++ Except.error e :: post) = (okRepos pre, some e) ∧
      findGitRepos pre = (okRepos pre, none) := by
  constructor
  · simpa using walkFold_error pre e post hpre []
  · simpa using walkFold_no_error pre hpre []

theorem claim4_walk_aborts_on_entry_error_witness :
    findGitRepos ([entRepo] ++ Except.error "permission denied" :: []) =
        (okRepos [entRepo], some "permission denied") ∧
      findGitRepos [entRepo] = (okRepos [entRepo], none) :=
  claim4_walk_aborts_on_entry_error [entRepo] [] "permission denied"
    (by
      intro x hx
      rw [List.mem_singleton.mp hx]
      exact ⟨⟨"b.git", true, true, true⟩, rfl⟩)

/-- C5 counterexample: the ForEach guard in `src/main.go` tests only
`ref.Name().IsBranch()`; a symbolic reference whose name lies under
`refs/heads/` passes the guard and is processed even though its kind is
not a direct hash reference, contradicting the claimed
kind-AND-name filter. -/
theorem claim5_counterexample :
    refProcessed symRef = true ∧ symRef.kind ≠ ReferenceKind.hash := by
  constructor
  · decide
  · decide

/-- C5 amended: the extractor of `src/main.go` processes a reference if
and only if its NAME is a local branch name, ignoring the reference kind:
the ForEach loop's output is unchanged by dropping every reference whose
name is not under `refs/heads/` (so tags and remote-tracking refs are never
folded into a histogram), and a reference whose name is not a branch name
contributes nothing. -/
theorem claim5_name_only_filter (env : GitEnv) (p n : String)
    (rs : List Reference) :
    processRefs env p n rs =
        processRefs env p n (rs.filter (fun r => isBranchName r.name)) ∧
      ∀ r : Reference, isBranchName r.name = false →
        processBranch env p n r = [] :=
  ⟨processRefs_filter_branch env p n rs,
    fun r h => processBranch_skip_nonbranch env p n r h⟩

theorem claim5_name_only_filter_witness :
    processRefs envW "r.git" "r" [symRef, tagRef] =
        processRefs envW "r.git" "r"
          ([symRef, tagRef].filter (fun r => isBranchName r.name)) ∧
      processBranch envW "r.git" "r" tagRef = [] :=
  ⟨(claim5_name_only_filter envW "r.git" "r" [symRef, tagRef]).1,
    (claim5_name_only_filter envW "r.git" "r" [symRef, tagRef]).2 tagRef
      (by decide)⟩

/-- C6: if `repo.Log` fails for one branch, only that branch is skipped
(with a warning): the repository still succeeds and returns exactly the
histograms of the surrounding branches. -/
theorem claim6_log_failure_skips_branch_only (env : GitEnv) (path : String)
    (pre post : List Reference) (r : Reference)
    (hopen : env.openOk path = true)
    (hrefs : env.refs path = some (pre ++ r :: post))
    (hlog : env.log path r = none) :
    processRepo env path =
      some (processRefs env path (repoDisplayName path) pre ++
        processRefs env path (repoDisplayName path) post) := by
  have hbody : processRefs env path (repoDisplayName path) (pre ++ r :: post) =
      processRefs env path (repoDisplayName path) pre ++
        processRefs env path (repoDisplayName path) post := by
    unfold processRefs
    rw [List.flatMap_append, List.flatMap_cons,
      processBranch_skip_logfail env path (repoDisplayName path) r hlog,
      List.nil_append]
  simp [processRepo, hopen, hrefs, hbody]

theorem claim6_log_failure_skips_branch_only_witness :
    envS.log "a.git" refDev = none ∧
      processRepo envS "a.git" =
        some (processRefs envS "a.git" (repoDisplayName "a.git") [] ++
          processRefs envS "a.git" (repoDisplayName "a.git") [refW]) :=
  ⟨by decide,
    claim6_log_failure_skips_branch_only envS "a.git" [] [refW] refDev
      (by decide) (by decide) (by decide)⟩

/-- C7: if commit iteration over a branch is interrupted after delivering
the commits `cs` (modelled by the traversal result carrying
`interrupted = true`), the partial histogram of those commits is still
emitted for that branch — provided it is non-empty — and the surrounding
branches are processed normally. -/
theorem claim7_interrupted_partial_emitted (env : GitEnv) (path : String)
    (pre post : List Reference) (r : Reference) (cs : List String)
    (hopen : env.openOk path = true)
    (hrefs : env.refs path = some (pre ++ r :: post))
    (hb : isBranchName r.name = true)
    (hlog : env.log path r = some ⟨cs, true⟩)
    (hne : histogramOf cs ≠ []) :
    processRepo env path =
      some (processRefs env path (repoDisplayName path) pre ++
        ⟨repoDisplayName path, shortName r.name, histogramOf cs⟩ ::
        processRefs env path (repoDisplayName path) post) := by
  have hlen : 0 < (histogramOf cs).length := List.length_pos.mpr hne
  have hbr : processBranch env path (repoDisplayName path) r =
      [⟨repoDisplayName path, shortName r.name, histogramOf cs⟩] := by
    simp [processBranch, refProcessed, hb, hlog, hlen]
  have hbody : processRefs env path (repoDisplayName path) (pre ++ r :: post) =
      processRefs env path (repoDisplayName path) pre ++
        ⟨repoDisplayName path, shortName r.name, histogramOf cs⟩ ::
        processRefs env path (repoDisplayName path) post := by
    unfold processRefs
    rw [List.flatMap_append, List.flatMap_cons, hbr, List.singleton_append]
  simp [processRepo, hopen, hrefs, hbody]

theorem claim7_interrupted_partial_emitted_witness :
    envS.log "a.git" refW = some ⟨["2024-01-01", "2024-01-01"], true⟩ ∧
      processRepo envS "a.git" =
        some (processRefs envS "a.git" (repoDisplayName "a.git") [refDev] ++
          ⟨repoDisplayName "a.git", shortName refW.name,
            histogramOf ["2024-01-01", "2024-01-01"]⟩ ::
          processRefs envS "a.git" (repoDisplayName "a.git") []) :=
  ⟨by decide,
    claim7_interrupted_partial_emitted envS "a.git" [refDev] [] refW
      ["2024-01-01", "2024-01-01"] (by decide) (by decide) (by decide)
      (by decide) (by decide)⟩

/-- C8: a repository whose open (or reference enumeration) fails
contributes exactly zero result records — the collected list over the
whole path list equals the contribution of the sibling repositories alone —
and, with the fatal steps of `main` succeeding, the process exit code
is still 0. -/
theorem claim8_failed_repo_zero_rows (env : GitEnv) (pre post : List String)
    (p : String) (B : Nat) (hB : 1 ≤ B)
    (hfail : env.openOk p = false ∨ env.refs p = none)
    (habs : env.absOk = true) (hw1 : env.writeDetailOk = true)
    (hw2 : env.writeDailyOk = true) (hw3 : env.writeYearlyOk = true) :
    processReposBatch env (pre ++ p :: post) B =
        some (processList env pre ++ processList env post) ∧
      pipelineExit env (pre ++ p :: post) B = some 0 := by
  have hrepo : processRepo env p = none := by
    rcases hfail with h | h
    · simp [processRepo, h]
    · by_cases ho : env.openOk p <;> simp [processRepo, ho, h]
  have hbatch := processReposBatch_pos env (pre ++ p :: post) B hB
  constructor
  · rw [hbatch, processList_append]
    have hcons : processList env (p :: post) = processList env post := by
      unfold processList
      rw [List.flatMap_cons, hrepo]
      rfl
    rw [hcons]
  · unfold pipelineExit
    rw [hbatch]
    simp [habs, hw1, hw2, hw3]

theorem claim8_failed_repo_zero_rows_witness :
    envW.openOk "bad.git" = false ∧
      processReposBatch envW (["a.git"] ++ "bad.git" :: ["b.git"]) 2 =
        some (processList envW ["a.git"] ++ processList envW ["b.git"]) ∧
      pipelineExit envW (["a.git"] ++ "bad.git" :: ["b.git"]) 2 = some 0 :=
  ⟨by decide,
    claim8_failed_repo_zero_rows envW ["a.git"] ["b.git"] "bad.git" 2
      (by decide) (Or.inl (by decide)) rfl rfl rfl rfl⟩

/-- C9: all three views are emitted in sorted order with no duplicate
keys: within each histogram's detail block the dates are strictly
increasing in the Go string order (so no duplicate dates per branch); the
daily-totals dates are strictly increasing; the yearly-totals years are
strictly increasing. -/
theorem claim9_sorted_views (results : List RepoBranchCommits)
    (hkeys : ∀ r ∈ results, (mapKeys r.CommitsByDate).Nodup) :
    (∀ r ∈ results, List.Pairwise (fun a b => strLE a b ∧ a ≠ b)
        ((detailBlock r).map (fun row => row.1))) ∧
      List.Pairwise (strictKey strLE) (dailyTotals results) ∧
      List.Pairwise (strictKey (fun a b : Nat => a ≤ b))
        (yearlyTotals results) := by
  refine ⟨?_, ?_, ?_⟩
  · intro r hr
    rw [detailBlock_dates]
    exact sortStrings_pairwise_strict _ (hkeys r hr)
  · exact sortPairs_pairwise_strict strLE
      (fun a b => lexLE_total a.toList b.toList)
      (fun a b c => lexLE_trans a.toList b.toList c.toList) _
      (nodup_mapKeys_buildMap _)
  · exact sortPairs_pairwise_strict (fun a b : Nat => a ≤ b)
      (fun a b => le_total a b) (fun a b c ha hb => le_trans ha hb) _
      (nodup_mapKeys_buildMap _)

theorem claim9_sorted_views_witness :
    (∀ r ∈ [histA, histB], (mapKeys r.CommitsByDate).Nodup) ∧
      (∀ r ∈ [histA, histB], List.Pairwise (fun a b => strLE a b ∧ a ≠ b)
        ((detailBlock r).map (fun row => row.1))) ∧
      List.Pairwise (strictKey strLE) (dailyTotals [histA, histB]) ∧
      List.Pairwise (strictKey (fun a b : Nat => a ≤ b))
        (yearlyTotals [histA, histB]) :=
  ⟨by decide, claim9_sorted_views [histA, histB] (by decide)⟩

/-- C10: the batch scheduler terminates exactly for positive batch sizes:
for any B ≥ 1 the chunking loop terminates within its fuel, processing
each repository exactly once (the result is the in-order concatenation of
the per-path contributions); for batch size 0 and a non-empty path list
the loop index never advances, so no amount of fuel makes the loop
terminate — and `main` passes the `-batch` flag value to the scheduler
without rejecting non-positive values. -/
theorem claim10_termination_iff_positive_batch :
    (∀ (env : GitEnv) (paths : List String) (B : Nat), 1 ≤ B →
        processReposBatch env paths B = some (processList env paths)) ∧
      ∀ (env : GitEnv) (paths : List String) (fuel : Nat)
        (acc : List RepoBranchCommits), paths ≠ [] →
          batchLoop env paths 0 fuel 0 acc = none :=
  ⟨fun env paths B hB => processReposBatch_pos env paths B hB,
    fun env paths fuel acc h => batchLoop_zero_stuck env paths h fuel acc⟩

theorem claim10_termination_iff_positive_batch_witness :
    processReposBatch envW ["a.git", "b.git", "bad.git"] 2 =
        some (processList envW ["a.git", "b.git", "bad.git"]) ∧
      batchLoop envW ["a.git"] 0 7 0 [] = none :=
  ⟨claim10_termination_iff_positive_batch.1 envW ["a.git", "b.git", "bad.git"]
      2 (by decide),
    claim10_termination_iff_positive_batch.2 envW ["a.git"] 7 [] (by decide)⟩

end GitStats
